import Mathlib

set_option synthInstance.maxSize 1024

deriving instance DecidableEq for Except

/-!
Verification of the `platformatic/undici-cache-memory` in-memory HTTP cache
store.  The first half of this file is a shallow embedding of the primary
implementation in `src/index.js` (class `MemoryCacheStore`): JavaScript `Map`s
become association lists, `Set`s become duplicate-free lists, times are epoch
milliseconds as `Nat`, and the `Infinity` default limits are `Option Nat` with
`none` standing for `Infinity`.  A second, clearly separated namespace
(`Legacy`) embeds the lock-based variant of the store found in
`src/unnamed/part_000`.  The theorems after the definitions settle the spec
claims about the two implementations.
-/

/-- A body chunk: an opaque payload plus the `byteLength` the JS code reads. -/
structure Chunk where
  data : String
  byteLength : Nat
deriving DecidableEq, Repr

/-- A cache key (request descriptor): `{origin, path, method, headers}`. -/
structure Key where
  origin : String
  path : String
  method : String
  headers : List (String × String)
deriving DecidableEq, Repr

/-- The metadata object (`val`) handed to `createWriteStream`. -/
structure Val where
  statusCode : Nat
  statusMessage : String
  rawHeaders : List String
  vary : Option (List (String × String))
  etag : Option String
  cachedAt : Nat
  staleAt : Nat
  deleteAt : Nat
deriving DecidableEq, Repr

/-- A stored entry: `{ ...key, ...val, cacheTags, body: [], size: 0 }` from
`createWriteStream` in `src/index.js` (the spread-in request-key fields are
never read back by the store, so they are not recorded here). -/
structure Entry where
  statusCode : Nat
  statusMessage : String
  rawHeaders : List String
  vary : Option (List (String × String))
  etag : Option String
  cachedAt : Nat
  staleAt : Nat
  deleteAt : Nat
  cacheTags : List String
  body : List Chunk
  size : Nat
deriving DecidableEq, Repr

/-- The object returned by `MemoryCacheStore.get` on a hit. -/
structure GetResult where
  statusMessage : String
  statusCode : Nat
  rawHeaders : List String
  body : List Chunk
  etag : Option String
  cacheTags : List String
  cachedAt : Nat
  staleAt : Nat
  deleteAt : Nat
deriving DecidableEq, Repr

/-- JS `Map` as an association list (insertion order preserved, no duplicate
keys in any map the code builds). `Map.get`. -/
def mget (m : List (String × α)) (k : String) : Option α :=
  (m.find? (fun p => p.1 = k)).map (·.2)

/-- JS `Map.set`: update the existing pair in place, else append. -/
def mset (m : List (String × α)) (k : String) (v : α) : List (String × α) :=
  match m with
  | [] => [(k, v)]
  | p :: rest => if p.1 = k then (k, v) :: rest else p :: mset rest k v

/-- JS `Map.delete`. -/
def mdel (m : List (String × α)) (k : String) : List (String × α) :=
  m.filter (fun p => p.1 ≠ k)

/-- JS `Set.add`: append if not already present. -/
def sadd (s : List String) (x : String) : List String :=
  if x ∈ s then s else s ++ [x]

/-- JS `Set.delete`. -/
def sdel (s : List String) (x : String) : List String :=
  s.filter (fun y => y ≠ x)

/-- `n > limit` where `limit = none` models `Infinity` (always `false`). -/
def gtInf (n : Nat) (limit : Option Nat) : Bool :=
  match limit with
  | none => false
  | some m => n > m

/-- `n >= limit` where `limit = none` models `Infinity` (always `false`). -/
def geInf (n : Nat) (limit : Option Nat) : Bool :=
  match limit with
  | none => false
  | some m => n ≥ m

/-- `n < limit` where `limit = none` models `Infinity` (always `true`). -/
def ltInf (n : Nat) (limit : Option Nat) : Bool :=
  match limit with
  | none => true
  | some m => n < m

/-- The `MemoryCacheStore` of `src/index.js`: private fields `#maxCount`,
`#maxSize`, `#maxEntrySize` (all initialised to `Infinity`, i.e. `none`),
`#cacheTagsHeader`, running `#size`/`#count`, the nested index
`#entries : origin → path → method → Entry[]` and the tag index
`#tags : origin → tag → Set of "path:method"`. -/
structure Store where
  maxCount : Option Nat
  maxSize : Option Nat
  maxEntrySize : Option Nat
  cacheTagsHeader : Option String
  size : Nat
  count : Nat
  entries : List (String × List (String × List (String × List Entry)))
  tags : List (String × List (String × List String))
deriving DecidableEq, Repr

/-- Split a character list on a single separator character (JS
`String.prototype.split` with a one-character separator). -/
def splitListChar (sep : Char) : List Char → List (List Char)
  | [] => [[]]
  | c :: rest =>
    let r := splitListChar sep rest
    if c = sep then [] :: r
    else
      match r with
      | [] => [[c]]
      | h :: t => (c :: h) :: t

/-- JS `str.split(sep)` for a one-character separator (the only shape the code
uses: `','` and `':'`). -/
def jsSplit (s : String) (sep : Char) : List String :=
  (splitListChar sep s.data).map String.mk

/-- ASCII lowering of one character (what JS `toLowerCase` does on the ASCII
header names the code handles). -/
def charLower (c : Char) : Char :=
  if 'A' ≤ c ∧ c ≤ 'Z' then Char.ofNat (c.toNat + 32) else c

/-- JS `str.toLowerCase()` on ASCII strings. -/
def jsToLower (s : String) : String := String.mk (s.data.map charLower)

/-- Inner loop of `#parseCacheTags`: walk the flat raw-header list two at a
time; on the first name (lowercased) equal to the configured header, split the
value on commas.  (The JS loop would throw if the header name matched at the
very last position of an odd-length array; raw header lists are name/value
pairs so that case does not arise and the `[_]` fallthrough returns `[]`.) -/
def parseCacheTagsGo (h : String) : List String → List String
  | name :: value :: rest =>
    if jsToLower name = h then jsSplit value ',' else parseCacheTagsGo h rest
  | _ => []

/-- `#parseCacheTags(rawHeaders)`: empty when no tag header is configured. -/
def parseCacheTags (hdr : Option String) (raw : List String) : List String :=
  match hdr with
  | none => []
  | some h => parseCacheTagsGo h raw

/-- `#saveCacheTags(key, cacheTags)`: for each tag, add `"path:method"` to the
per-origin tag set. -/
def saveCacheTags (s : Store) (k : Key) (cacheTags : List String) : Store :=
  if cacheTags.isEmpty then s
  else
    let originTags := (mget s.tags k.origin).getD []
    let originTags' := cacheTags.foldl (fun ot tag =>
      let tagPaths := (mget ot tag).getD []
      mset ot tag (sadd tagPaths (k.path ++ ":" ++ k.method))) originTags
    { s with tags := mset s.tags k.origin originTags' }

/-- One tag's step of `#unlinkRouteFromCacheTag`: remove `cacheKey` from the
tag's set, dropping the tag entirely once its set empties. -/
def unlinkTagStep (cacheKey : String) (ot : List (String × List String))
    (tag : String) : List (String × List String) :=
  match mget ot tag with
  | none => ot
  | some cacheKeys =>
    let ck' := sdel cacheKeys cacheKey
    if ck'.isEmpty then mdel ot tag else mset ot tag ck'

/-- `#unlinkRouteFromCacheTag(key, cacheTags)`, acting on the `#tags` field:
remove `"path:method"` from each tag's set, dropping a tag whose set empties. -/
def unlinkRouteFromCacheTag (tags : List (String × List (String × List String)))
    (k : Key) (cacheTags : List String) :
    List (String × List (String × List String)) :=
  match mget tags k.origin with
  | none => tags
  | some originTags =>
    mset tags k.origin
      (cacheTags.foldl (unlinkTagStep (k.path ++ ":" ++ k.method)) originTags)

/-- `#deleteEntry(key, entry)`: decrement the running totals and unlink the
entry's tags.  Does not touch `#entries` (all index removal is at call sites). -/
def deleteEntry (s : Store) (k : Key) (e : Entry) : Store :=
  { s with
    size := s.size - e.size
    count := s.count - 1
    tags := unlinkRouteFromCacheTag s.tags k e.cacheTags }

/-- `#deleteHalf()`: one pass over the whole index, splicing off the first
`floor(length / 2)` entries of every per-(origin,path,method) list.  The JS
cleanup branches (`entries.delete(key)` when a list is empty — a reference
error on an identifier `key` that is not in scope — and the
`pathValues.length === 0` / `originValues.length === 0` checks, which compare
`undefined === 0` because `Map` has no `length`) are dead code for every store
the class builds (no stored list is empty) resp. always-false conditions, so
the structural cleanup never runs. -/
def deleteHalf (s : Store) : Store :=
  s.entries.foldl (fun acc (ov : String × List (String × List (String × List Entry))) =>
    ov.2.foldl (fun acc2 (pv : String × List (String × List Entry)) =>
      pv.2.foldl (fun acc3 (me : String × List Entry) =>
        let entries := ((mget ((mget ((mget acc3.entries ov.1).getD []) pv.1).getD []) me.1).getD [])
        let removed := entries.take (entries.length / 2)
        let kept := entries.drop (entries.length / 2)
        let acc4 := removed.foldl
          (fun a e => deleteEntry a ⟨ov.1, pv.1, me.1, []⟩ e) acc3
        let originValues := (mget acc4.entries ov.1).getD []
        let pathValues := (mget originValues pv.1).getD []
        let newIndex := mset acc4.entries ov.1
          (mset originValues pv.1 (mset pathValues me.1 kept))
        { acc4 with entries := newIndex }) acc2) acc) s

/-- `#saveEntry(key, entry)` (the `final` commit step of a write stream):
append the entry to its per-(origin,path,method) list, bump the totals, and run
one `#deleteHalf` pass if a total exceeds its bound. -/
def saveEntry (s : Store) (k : Key) (e : Entry) : Store :=
  let originValues := (mget s.entries k.origin).getD []
  let pathValues := (mget originValues k.path).getD []
  let entries := (mget pathValues k.method).getD []
  let s1 : Store := { s with
    entries := mset s.entries k.origin
      (mset originValues k.path (mset pathValues k.method (entries ++ [e])))
    size := s.size + e.size
    count := s.count + 1 }
  if gtInf s1.size s1.maxSize || gtInf s1.count s1.maxCount then deleteHalf s1 else s1

/-- `#getEntries(key)`. -/
def getEntries (s : Store) (k : Key) : Option (List Entry) :=
  match mget s.entries k.origin with
  | none => none
  | some originValues =>
    match mget originValues k.path with
    | none => none
    | some pathValues => mget pathValues k.method

/-- The `vary` check inside `get`:
`entry.vary == null || Object.keys(entry.vary).every(h => entry.vary[h] === key.headers?.[h])`. -/
def varyMatches (vary : Option (List (String × String)))
    (headers : List (String × String)) : Bool :=
  match vary with
  | none => true
  | some vs => vs.all (fun p => (mget headers p.1) = some p.2)

/-- The projection `get` returns on a hit. -/
def toResult (e : Entry) : GetResult :=
  { statusMessage := e.statusMessage
    statusCode := e.statusCode
    rawHeaders := e.rawHeaders
    body := e.body
    etag := e.etag
    cacheTags := e.cacheTags
    cachedAt := e.cachedAt
    staleAt := e.staleAt
    deleteAt := e.deleteAt }

/-- `MemoryCacheStore.get(key)` at time `now` (`Date.now()`): first entry of
the candidate list with `deleteAt > now` and a satisfied `vary` mapping. -/
def Store.get (s : Store) (k : Key) (now : Nat) : Option GetResult :=
  match getEntries s k with
  | none => none
  | some entries =>
    (entries.find? (fun e => decide (now < e.deleteAt) && varyMatches e.vary k.headers)).map
      toResult

/-- The entry initialised by `createWriteStream`:
`{ ...key, ...val, cacheTags, body: [], size: 0 }`. -/
def mkWriteEntry (v : Val) (cacheTags : List String) : Entry :=
  { statusCode := v.statusCode
    statusMessage := v.statusMessage
    rawHeaders := v.rawHeaders
    vary := v.vary
    etag := v.etag
    cachedAt := v.cachedAt
    staleAt := v.staleAt
    deleteAt := v.deleteAt
    cacheTags := cacheTags
    body := []
    size := 0 }

/-- The `write` callback of the returned `Writable`, folded over the chunk
sequence: accumulate `size`; once `size >= #maxEntrySize` the stream is
destroyed (`none`, no further chunk is processed and `final` never runs),
otherwise the chunk is pushed onto the body. -/
def writeChunks (max : Option Nat) (e : Entry) : List Chunk → Option Entry
  | [] => some e
  | c :: rest =>
    let sz := e.size + c.byteLength
    if geInf sz max then none
    else writeChunks max { e with size := sz, body := e.body ++ [c] } rest

/-- A whole write-stream lifecycle of `src/index.js`: `createWriteStream`
(parse and save cache tags, initialise the entry), the chunk writes, and on
normal completion the `final` callback committing via `#saveEntry`.  A
destroyed (oversized) stream leaves the store with only the tag-index update. -/
def commitWrite (s : Store) (k : Key) (v : Val) (chunks : List Chunk) : Store :=
  let cacheTags := parseCacheTags s.cacheTagsHeader v.rawHeaders
  let s1 := saveCacheTags s k cacheTags
  match writeChunks s1.maxEntrySize (mkWriteEntry v cacheTags) chunks with
  | none => s1
  | some e => saveEntry s1 k e

/-- `MemoryCacheStore.delete(key)`: run `#deleteEntry` (with the *original*
key, as the JS does) over every entry of every method under
`(key.origin, key.path)`, then drop the whole path from the origin map. -/
def Store.delete (s : Store) (k : Key) : Store :=
  match mget s.entries k.origin with
  | none => s
  | some originValues =>
    match mget originValues k.path with
    | none => s
    | some pathValues =>
      let s1 := pathValues.foldl
        (fun a (me : String × List Entry) =>
          me.2.foldl (fun a2 e => deleteEntry a2 k e) a) s
      { s1 with entries := mset s1.entries k.origin (mdel originValues k.path) }

/-- `#deleteByKey(key)`: delete every entry under the exact
(origin, path, method), drop that method from the path map, and drop the path
when its map empties. -/
def deleteByKey (s : Store) (k : Key) : Store :=
  match mget s.entries k.origin with
  | none => s
  | some originValues =>
    match mget originValues k.path with
    | none => s
    | some pathValues =>
      match mget pathValues k.method with
      | none => s
      | some entries =>
        let s1 := entries.foldl (fun a e => deleteEntry a k e) s
        let pathValues' := mdel pathValues k.method
        let originValues' :=
          if pathValues'.isEmpty then mdel originValues k.path
          else mset originValues k.path pathValues'
        { s1 with entries := mset s1.entries k.origin originValues' }

/-- `const [path, method] = cacheKey.split(':')` turned into a key: the first
two segments become path and method (extra segments are discarded, a missing
second segment — JS `undefined` — is modelled by `""`). -/
def mkKeyFromCK (origin ck : String) : Key :=
  match jsSplit ck ':' with
  | [] => ⟨origin, "", "", []⟩
  | [p] => ⟨origin, p, "", []⟩
  | p :: m :: _ => ⟨origin, p, m, []⟩

/-- Rebuilding `"path:method"` from the parse of a cache key; a cache key is
well formed when this round-trips (true whenever path and method are
colon-free, which is how `#saveCacheTags` builds them for colon-free routes). -/
def ckJoin (origin ck : String) : String :=
  (mkKeyFromCK origin ck).path ++ ":" ++ (mkKeyFromCK origin ck).method

/-- The current set of cache keys registered for `tag` under `origin`. -/
def tagSet (s : Store) (origin tag : String) : List String :=
  (mget ((mget s.tags origin).getD []) tag).getD []

/-- The `for (const cacheKey of cacheKeys)` loop of `deleteByCacheTags`:
`cacheKeys` is a live JS `Set`, and `#deleteByKey → #deleteEntry →
#unlinkRouteFromCacheTag` removes already-visited elements from it while the
loop runs; iterating a snapshot but skipping elements no longer in the current
set is exactly the live-`Set` iteration semantics (elements are never added
during the loop). -/
def delTagKeys (origin tag : String) : List String → Store → Store
  | [], s => s
  | ck :: rest, s =>
    let s' := if ck ∈ tagSet s origin tag then deleteByKey s (mkKeyFromCK origin ck) else s
    delTagKeys origin tag rest s'

/-- One iteration of the outer tag loop of `deleteByCacheTags`: look the tag up
(`continue` when absent), delete every registered cache key, then
`originTags.delete(cacheTag)`. -/
def delOneTag (s : Store) (origin tag : String) : Store :=
  match mget ((mget s.tags origin).getD []) tag with
  | none => s
  | some cacheKeys =>
    let s1 := delTagKeys origin tag cacheKeys s
    let ot := (mget s1.tags origin).getD []
    { s1 with tags := mset s1.tags origin (mdel ot tag) }

/-- `MemoryCacheStore.deleteByCacheTags(origin, cacheTags)`. -/
def Store.deleteByCacheTags (s : Store) (origin : String) (cacheTags : List String) :
    Store :=
  if (mget s.tags origin).isNone then s
  else if (mget s.entries origin).isNone then s
  else cacheTags.foldl (fun acc tag => delOneTag acc origin tag) s

/-- A constructor option value as validated by the JS code: an integral
number, a non-integral number (`Number.isInteger` false), or a non-number. -/
inductive OptVal where
  | intVal (n : Int)
  | nonIntNum
  | nonNumber
deriving DecidableEq, Repr

/-- The recognised fields of the constructor's `opts` object (an absent field
is `none`; a `cacheTagsHeader` of non-string type is ignored by the code, so
only string values are represented). -/
structure Opts where
  maxCount : Option OptVal := none
  maxSize : Option OptVal := none
  maxEntrySize : Option OptVal := none
  cacheTagsHeader : Option String := none
deriving DecidableEq, Repr

/-- Validation of one numeric option:
`typeof x !== 'number' || !Number.isInteger(x) || x < 0` throws. -/
def checkOpt (name : String) : Option OptVal → Except String (Option Nat)
  | none => .ok none
  | some (.intVal n) =>
    if n < 0 then .error ("MemoryCacheStore options." ++ name ++ " must be a non-negative integer")
    else .ok (some n.toNat)
  | some .nonIntNum =>
    .error ("MemoryCacheStore options." ++ name ++ " must be a non-negative integer")
  | some .nonNumber =>
    .error ("MemoryCacheStore options." ++ name ++ " must be a non-negative integer")

/-- The `MemoryCacheStore` constructor of `src/index.js`: with no options every
limit stays at its field initialiser `Infinity` (`none`); options are validated
in source order, the first bad one throwing before any later field is read. -/
def mkMemoryCacheStore (opts : Option Opts) : Except String Store :=
  match opts with
  | none =>
    .ok { maxCount := none, maxSize := none, maxEntrySize := none,
          cacheTagsHeader := none, size := 0, count := 0, entries := [], tags := [] }
  | some o =>
    match checkOpt "maxCount" o.maxCount with
    | .error e => .error e
    | .ok mc =>
      match checkOpt "maxSize" o.maxSize with
      | .error e => .error e
      | .ok ms =>
        match checkOpt "maxEntrySize" o.maxEntrySize with
        | .error e => .error e
        | .ok mes =>
          .ok { maxCount := mc, maxSize := ms, maxEntrySize := mes,
                cacheTagsHeader := o.cacheTagsHeader.map jsToLower,
                size := 0, count := 0, entries := [], tags := [] }

/-- The store produced by `new MemoryCacheStore()`. -/
def defaultStore : Store :=
  { maxCount := none, maxSize := none, maxEntrySize := none,
    cacheTagsHeader := none, size := 0, count := 0, entries := [], tags := [] }

/-- `deleteAt`-descending order of a per-key entry list (spec invariant). -/
def sortedByDeleteAtDesc : List Entry → Bool
  | [] => true
  | [_] => true
  | a :: b :: rest => (b.deleteAt ≤ a.deleteAt) && sortedByDeleteAtDesc (b :: rest)

/-! ### Association-list lemmas -/

theorem mget_nil (k : String) : mget ([] : List (String × α)) k = none := rfl

theorem mget_cons (p : String × α) (rest : List (String × α)) (k : String) :
    mget (p :: rest) k = if p.1 = k then some p.2 else mget rest k := by
  by_cases h : p.1 = k <;> simp [mget, List.find?, h]

theorem mget_mset_self (m : List (String × α)) (k : String) (v : α) :
    mget (mset m k v) k = some v := by
  induction m with
  | nil => simp [mset, mget_cons]
  | cons p rest ih =>
    by_cases h : p.1 = k
    · simp [mset, h, mget_cons]
    · simp [mset, h, mget_cons, ih]

theorem mget_mset_ne (m : List (String × α)) (k k' : String) (v : α) (h : k' ≠ k) :
    mget (mset m k v) k' = mget m k' := by
  induction m with
  | nil => simp [mset, mget_cons, mget_nil, Ne.symm h]
  | cons p rest ih =>
    by_cases hp : p.1 = k
    · have hne : p.1 ≠ k' := by rw [hp]; exact Ne.symm h
      simp [mset, hp, mget_cons, Ne.symm h, hne]
    · simp [mset, hp, mget_cons, ih]

theorem mget_mdel_self (m : List (String × α)) (k : String) :
    mget (mdel m k) k = none := by
  induction m with
  | nil => simp [mdel, mget_nil]
  | cons p rest ih =>
    by_cases h : p.1 = k
    · simpa [mdel, List.filter_cons, h] using ih
    · simpa [mdel, List.filter_cons, h, mget_cons] using ih

theorem mget_mdel_ne (m : List (String × α)) (k k' : String) (h : k' ≠ k) :
    mget (mdel m k) k' = mget m k' := by
  induction m with
  | nil => simp [mdel]
  | cons p rest ih =>
    by_cases hp : p.1 = k
    · have hne : p.1 ≠ k' := by rw [hp]; exact Ne.symm h
      have hdrop : mdel (p :: rest) k = mdel rest k := by
        simp [mdel, List.filter_cons, hp]
      rw [hdrop, mget_cons, if_neg hne]
      exact ih
    · simp [mdel, List.filter_cons, hp, mget_cons] at ih ⊢
      by_cases hp' : p.1 = k'
      · simp [hp']
      · simpa [hp', mdel] using ih

theorem mget_of_mdel_nil (m : List (String × α)) (k k' : String)
    (hnil : mdel m k = []) (h : k' ≠ k) : mget m k' = none := by
  induction m with
  | nil => simp [mget_nil]
  | cons p rest ih =>
    by_cases hp : p.1 = k
    · simp [mdel, List.filter_cons, hp] at hnil
      have hne : p.1 ≠ k' := by rw [hp]; exact Ne.symm h
      simp [mget_cons, hne]
      exact ih (by simpa [mdel] using hnil)
    · simp [mdel, List.filter_cons, hp] at hnil

/-! ### Store-level helper lemmas -/

theorem saveCacheTags_entries (s : Store) (k : Key) (t : List String) :
    (saveCacheTags s k t).entries = s.entries := by
  unfold saveCacheTags; split <;> rfl

theorem saveCacheTags_size (s : Store) (k : Key) (t : List String) :
    (saveCacheTags s k t).size = s.size := by
  unfold saveCacheTags; split <;> rfl

theorem saveCacheTags_count (s : Store) (k : Key) (t : List String) :
    (saveCacheTags s k t).count = s.count := by
  unfold saveCacheTags; split <;> rfl

theorem saveCacheTags_maxCount (s : Store) (k : Key) (t : List String) :
    (saveCacheTags s k t).maxCount = s.maxCount := by
  unfold saveCacheTags; split <;> rfl

theorem saveCacheTags_maxSize (s : Store) (k : Key) (t : List String) :
    (saveCacheTags s k t).maxSize = s.maxSize := by
  unfold saveCacheTags; split <;> rfl

theorem saveCacheTags_maxEntrySize (s : Store) (k : Key) (t : List String) :
    (saveCacheTags s k t).maxEntrySize = s.maxEntrySize := by
  unfold saveCacheTags; split <;> rfl

theorem get_eq_of_entries_eq (a b : Store) (h : a.entries = b.entries)
    (k : Key) (now : Nat) : a.get k now = b.get k now := by
  unfold Store.get getEntries; rw [h]

theorem getEntriesD (s : Store) (k : Key) :
    (getEntries s k).getD [] =
      (mget ((mget ((mget s.entries k.origin).getD []) k.path).getD []) k.method).getD [] := by
  unfold getEntries
  cases h : mget s.entries k.origin with
  | none => simp [h, mget_nil]
  | some ov =>
    cases h2 : mget ov k.path with
    | none => simp [h, h2, mget_nil]
    | some pv => simp [h, h2]

/-! ### C1 — expiry gates retrieval, staleness does not -/

/-- C1: a `get` never returns an entry once `now ≥ deleteAt` (every returned
result has `deleteAt > now`), while an entry whose `staleAt` has passed but
whose `deleteAt` has not, and whose `vary` matches, is still returned —
`staleAt` plays no role in the retrieval predicate. -/
theorem C1_expiry_gates_retrieval_staleAt_does_not (s : Store) (k : Key) (now : Nat) :
    (∀ r, s.get k now = some r → now < r.deleteAt) ∧
    (∀ e, getEntries s k = some [e] → e.staleAt ≤ now → now < e.deleteAt →
      varyMatches e.vary k.headers = true → s.get k now = some (toResult e)) := by
  constructor
  · intro r hr
    unfold Store.get at hr
    cases hg : getEntries s k with
    | none => rw [hg] at hr; simp at hr
    | some l =>
      rw [hg] at hr
      simp only [Option.map_eq_some'] at hr
      obtain ⟨e, hfind, hres⟩ := hr
      have hp := List.find?_some hfind
      simp only [Bool.and_eq_true, decide_eq_true_eq] at hp
      rw [← hres]
      exact hp.1
  · intro e hg _hstale hlt hvary
    unfold Store.get
    rw [hg]
    simp [List.find?, hvary, hlt]

def c1Key : Key := ⟨"origin-a", "/p", "GET", []⟩

def c1Val : Val :=
  { statusCode := 200, statusMessage := "ok", rawHeaders := [], vary := none,
    etag := none, cachedAt := 0, staleAt := 3, deleteAt := 10 }

def c1Store : Store := commitWrite defaultStore c1Key c1Val []

/-- C1 witness: at `now = 5` (past `staleAt = 3`, before `deleteAt = 10`) the
stale entry is still returned. -/
theorem C1_witness : c1Store.get c1Key 5 = some (toResult (mkWriteEntry c1Val [])) :=
  (C1_expiry_gates_retrieval_staleAt_does_not c1Store c1Key 5).2 (mkWriteEntry c1Val [])
    (by decide) (by decide) (by decide) (by decide)

/-! ### C6 — vary disambiguation -/

/-- C6: with two non-expired entries under one (origin, path, method), a
lookup returns exactly the entry whose `vary` mapping its headers satisfy, and
returns absence when neither is satisfied. -/
theorem C6_vary_disambiguates (s : Store) (k : Key) (now : Nat) (e1 e2 : Entry)
    (hl : getEntries s k = some [e1, e2])
    (h1 : now < e1.deleteAt) (h2 : now < e2.deleteAt) :
    (varyMatches e1.vary k.headers = true → varyMatches e2.vary k.headers = false →
      s.get k now = some (toResult e1)) ∧
    (varyMatches e1.vary k.headers = false → varyMatches e2.vary k.headers = true →
      s.get k now = some (toResult e2)) ∧
    (varyMatches e1.vary k.headers = false → varyMatches e2.vary k.headers = false →
      s.get k now = none) := by
  refine ⟨?_, ?_, ?_⟩ <;> intro hv1 hv2 <;> unfold Store.get <;> rw [hl] <;>
    simp [List.find?, hv1, hv2, h1, h2]

def c6Val1 : Val :=
  { statusCode := 200, statusMessage := "for-h1", rawHeaders := [],
    vary := some [("h", "1")], etag := none, cachedAt := 0, staleAt := 50, deleteAt := 100 }

def c6Val2 : Val :=
  { statusCode := 200, statusMessage := "for-h2", rawHeaders := [],
    vary := some [("h", "2")], etag := none, cachedAt := 0, staleAt := 50, deleteAt := 100 }

def c6Store : Store :=
  commitWrite (commitWrite defaultStore ⟨"o", "/p", "GET", [("h", "1")]⟩ c6Val1 [])
    ⟨"o", "/p", "GET", [("h", "2")]⟩ c6Val2 []

/-- C6 witness: the request with `h: 2` gets the second entry, and a request
matching neither vary mapping gets absence. -/
theorem C6_witness :
    c6Store.get ⟨"o", "/p", "GET", [("h", "2")]⟩ 0 = some (toResult (mkWriteEntry c6Val2 [])) ∧
    c6Store.get ⟨"o", "/p", "GET", [("h", "3")]⟩ 0 = none :=
  ⟨(C6_vary_disambiguates c6Store ⟨"o", "/p", "GET", [("h", "2")]⟩ 0
      (mkWriteEntry c6Val1 []) (mkWriteEntry c6Val2 []) (by decide) (by decide) (by decide)).2.1
      (by decide) (by decide),
   (C6_vary_disambiguates c6Store ⟨"o", "/p", "GET", [("h", "3")]⟩ 0
      (mkWriteEntry c6Val1 []) (mkWriteEntry c6Val2 []) (by decide) (by decide) (by decide)).2.2
      (by decide) (by decide)⟩

/-! ### C10 — delete(key) removes every method under (origin, path) -/

/-- C10: after `delete(key)`, a lookup at that origin and path with *any*
method (and any headers, at any time) returns absence: `delete` drops the
whole per-path map, not just the key's own method. -/
theorem C10_delete_removes_all_methods (s : Store) (k : Key) (m : String)
    (hs : List (String × String)) (now : Nat) :
    (s.delete k).get ⟨k.origin, k.path, m, hs⟩ now = none := by
  unfold Store.delete
  cases hO : mget s.entries k.origin with
  | none => unfold Store.get getEntries; simp [hO]
  | some ov =>
    cases hP : mget ov k.path with
    | none => unfold Store.get getEntries; simp [hO, hP]
    | some pv =>
      unfold Store.get getEntries
      simp [hP, mget_mset_self, mget_mdel_self]

/-! ### C4 — oversized writes commit nothing -/

/-- C4: when the accumulated body size reaches `maxEntrySize` mid-write, the
stream is destroyed and no entry is committed: the index is untouched, every
lookup (of this key or any other) is exactly as before the write, and a key
that was absent stays absent.  Only the writer observes the failure (its
stream is destroyed); nothing is thrown into the store. -/
theorem C4_oversize_commits_nothing (s : Store) (k : Key) (v : Val) (chunks : List Chunk)
    (hover : writeChunks s.maxEntrySize
      (mkWriteEntry v (parseCacheTags s.cacheTagsHeader v.rawHeaders)) chunks = none) :
    (commitWrite s k v chunks).entries = s.entries ∧
    (∀ kq now, (commitWrite s k v chunks).get kq now = s.get kq now) ∧
    (∀ now, s.get k now = none → (commitWrite s k v chunks).get k now = none) := by
  have hE : (commitWrite s k v chunks).entries = s.entries := by
    simp only [commitWrite]
    rw [saveCacheTags_maxEntrySize, hover]
    exact saveCacheTags_entries ..
  refine ⟨hE, fun kq now => get_eq_of_entries_eq _ _ hE kq now, fun now h => ?_⟩
  exact (get_eq_of_entries_eq _ _ hE k now).trans h

def c4Store : Store := { defaultStore with maxEntrySize := some 5 }

def c4Key : Key := ⟨"o", "/big", "GET", []⟩

def c4Val : Val :=
  { statusCode := 200, statusMessage := "big", rawHeaders := [], vary := none,
    etag := none, cachedAt := 0, staleAt := 50, deleteAt := 100 }

/-- C4 witness: a single 5-byte chunk reaches the 5-byte `maxEntrySize`, so
the subsequent lookup of the (previously absent) key returns absence. -/
theorem C4_witness :
    (commitWrite c4Store c4Key c4Val [⟨"xxxxx", 5⟩]).get c4Key 0 = none :=
  ((C4_oversize_commits_nothing c4Store c4Key c4Val [⟨"xxxxx", 5⟩] (by decide)).2.1
    c4Key 0).trans (by decide)

theorem getEntries_update_self (s t : Store) (k : Key) (L : List Entry)
    (ht : t.entries = mset s.entries k.origin
      (mset ((mget s.entries k.origin).getD []) k.path
        (mset ((mget ((mget s.entries k.origin).getD []) k.path).getD []) k.method L))) :
    getEntries t k = some L := by
  unfold getEntries
  rw [ht, mget_mset_self]
  simp [mget_mset_self]

/-! ### C5 — per-key list order -/

def c5Key : Key := ⟨"o", "/p", "GET", []⟩

def c5Val1 : Val :=
  { statusCode := 200, statusMessage := "first", rawHeaders := [], vary := none,
    etag := none, cachedAt := 0, staleAt := 50, deleteAt := 100 }

def c5Val2 : Val :=
  { statusCode := 200, statusMessage := "second", rawHeaders := [], vary := none,
    etag := none, cachedAt := 0, staleAt := 50, deleteAt := 200 }

def c5Store : Store :=
  commitWrite (commitWrite defaultStore c5Key c5Val1 [⟨"x", 1⟩]) c5Key c5Val2 [⟨"y", 1⟩]

/-- C5 counterexample: committing `deleteAt = 100` and then `deleteAt = 200`
under the same key leaves the list `[100, 200]` — ascending, so the claimed
`deleteAt`-descending invariant is violated right after the second insertion. -/
theorem C5_counterexample :
    ((getEntries c5Store c5Key).getD []).map Entry.deleteAt = [100, 200] ∧
    sortedByDeleteAtDesc ((getEntries c5Store c5Key).getD []) = false := by
  constructor <;> decide

/-- C5 amended: `#saveEntry` performs no order-maintaining insertion — a
completed write (that does not trigger the eviction pass) *appends* its entry
at the tail of the per-(origin, path, method) list, so the list is in commit
order and is `deleteAt`-descending only when writes arrive with non-increasing
`deleteAt`. -/
theorem C5_amended_append_at_tail (s : Store) (k : Key) (v : Val) (chunks : List Chunk)
    (e : Entry)
    (hws : writeChunks s.maxEntrySize
      (mkWriteEntry v (parseCacheTags s.cacheTagsHeader v.rawHeaders)) chunks = some e)
    (hsize : gtInf (s.size + e.size) s.maxSize = false)
    (hcount : gtInf (s.count + 1) s.maxCount = false) :
    getEntries (commitWrite s k v chunks) k = some ((getEntries s k).getD [] ++ [e]) := by
  have hcw : commitWrite s k v chunks =
      saveEntry (saveCacheTags s k (parseCacheTags s.cacheTagsHeader v.rawHeaders)) k e := by
    simp only [commitWrite]
    rw [saveCacheTags_maxEntrySize, hws]
  have h1 : getEntries
      (saveEntry (saveCacheTags s k (parseCacheTags s.cacheTagsHeader v.rawHeaders)) k e) k =
      some ((mget ((mget ((mget s.entries k.origin).getD []) k.path).getD []) k.method).getD []
        ++ [e]) := by
    unfold saveEntry
    rw [if_neg]
    · exact getEntries_update_self s _ k _ (by simp [saveCacheTags_entries])
    · simp [saveCacheTags_size, saveCacheTags_count, saveCacheTags_maxSize,
        saveCacheTags_maxCount, hsize, hcount]
  rw [hcw, h1, ← getEntriesD]

/-- C5 amended witness: the second write's entry lands at the tail. -/
theorem C5_amended_witness :
    getEntries c5Store c5Key =
      some ((getEntries (commitWrite defaultStore c5Key c5Val1 [⟨"x", 1⟩]) c5Key).getD []
        ++ [{ mkWriteEntry c5Val2 [] with body := [⟨"y", 1⟩], size := 1 }]) :=
  C5_amended_append_at_tail (commitWrite defaultStore c5Key c5Val1 [⟨"x", 1⟩]) c5Key
    c5Val2 [⟨"y", 1⟩] ({ mkWriteEntry c5Val2 [] with body := [⟨"y", 1⟩], size := 1 })
    (by decide) (by decide) (by decide)

/-! ### C2 — overwrite-in-place fails on the code -/

def c2Key : Key := ⟨"o", "/p", "GET", []⟩

def c2Val1 : Val :=
  { statusCode := 200, statusMessage := "old", rawHeaders := [], vary := none,
    etag := none, cachedAt := 0, staleAt := 50, deleteAt := 100 }

def c2Val2 : Val :=
  { statusCode := 200, statusMessage := "new", rawHeaders := [], vary := none,
    etag := none, cachedAt := 10, staleAt := 60, deleteAt := 110 }

def c2Store : Store :=
  commitWrite (commitWrite defaultStore c2Key c2Val1 [⟨"a", 1⟩]) c2Key c2Val2 [⟨"b", 1⟩]

/-- C2 evaluation at the failing input: a second completed write to a key that
already holds a committed entry *appends* a second entry — the global count
rises from 1 to 2, two entries sit under the one (origin, path, method,
vary-match) combination, and `get` still returns the *old* entry (the repo's
own test `a stale request is overwritten` expects the new one). -/
theorem C2_second_write_appends_and_old_wins :
    c2Store.count = 2 ∧
    ((getEntries c2Store c2Key).getD []).length = 2 ∧
    (c2Store.get c2Key 20).map GetResult.statusMessage = some "old" := by
  refine ⟨by decide, by decide, by decide⟩

/-! ### C3 — eviction does not reach the bound -/

def c3Store : Store :=
  commitWrite (commitWrite (commitWrite { defaultStore with maxCount := some 2 }
    ⟨"o", "/a", "GET", []⟩
    { statusCode := 200, statusMessage := "a", rawHeaders := [], vary := none,
      etag := none, cachedAt := 0, staleAt := 50, deleteAt := 100 } [⟨"x", 1⟩])
    ⟨"o", "/b", "GET", []⟩
    { statusCode := 200, statusMessage := "b", rawHeaders := [], vary := none,
      etag := none, cachedAt := 0, staleAt := 50, deleteAt := 100 } [⟨"x", 1⟩])
    ⟨"o", "/c", "GET", []⟩
    { statusCode := 200, statusMessage := "c", rawHeaders := [], vary := none,
      etag := none, cachedAt := 0, staleAt := 50, deleteAt := 100 } [⟨"x", 1⟩]

/-- C3 evaluation at the failing input: with `maxCount = 2`, the third write
to a third distinct path triggers `#deleteHalf`, but every per-key list has
length 1 and `splice(0, 0.5)` removes nothing (`floor(1/2) = 0`), so the
post-state count is 3 — above the bound — and all three entries remain
retrievable. -/
theorem C3_eviction_misses_bound :
    c3Store.maxCount = some 2 ∧ c3Store.count = 3 ∧
    (c3Store.get ⟨"o", "/a", "GET", []⟩ 0).isSome = true ∧
    (c3Store.get ⟨"o", "/b", "GET", []⟩ 0).isSome = true ∧
    (c3Store.get ⟨"o", "/c", "GET", []⟩ 0).isSome = true := by
  refine ⟨by decide, by decide, by decide, by decide, by decide⟩

/-! ### C9 — documented defaults vs. the code's Infinity defaults -/

def c9Key : Key := ⟨"example.com", "/large", "GET", []⟩

def c9Val : Val :=
  { statusCode := 200, statusMessage := "OK", rawHeaders := [], vary := none,
    etag := none, cachedAt := 0, staleAt := 3600000, deleteAt := 7200000 }

/-- C9 evaluation: `new MemoryCacheStore()` leaves every limit at `Infinity`
(`none`) rather than the documented 1024 / 5MB / 100MB, so a single 6MB
(6291456-byte) body — which the repo's own default-limits test requires to be
rejected — is committed and returned by `get`; the option validation part of
the claim does hold (a negative `maxCount` throws the descriptive error and no
store is produced). -/
theorem C9_defaults_are_unbounded :
    mkMemoryCacheStore none = .ok defaultStore ∧
    defaultStore.maxCount = none ∧ defaultStore.maxEntrySize = none ∧
    defaultStore.maxSize = none ∧
    ((commitWrite defaultStore c9Key c9Val [⟨"x", 6291456⟩]).get c9Key 0).isSome = true ∧
    mkMemoryCacheStore (some { maxCount := some (.intVal (-1)) }) =
      .error "MemoryCacheStore options.maxCount must be a non-negative integer" := by
  refine ⟨by decide, by decide, by decide, by decide, by decide, by decide⟩

/-! ### C8 — tag invalidation granularity -/

def c8Base : Store := { defaultStore with cacheTagsHeader := some "cache-tag" }

def c8ValTagged : Val :=
  { statusCode := 200, statusMessage := "tagged", rawHeaders := ["Cache-Tag", "t"],
    vary := some [("h", "1")], etag := none, cachedAt := 0, staleAt := 50, deleteAt := 100 }

def c8ValUntagged : Val :=
  { statusCode := 200, statusMessage := "untagged", rawHeaders := [],
    vary := some [("h", "2")], etag := none, cachedAt := 0, staleAt := 50, deleteAt := 100 }

def c8Store : Store :=
  commitWrite (commitWrite c8Base ⟨"o", "/p", "GET", [("h", "1")]⟩ c8ValTagged [⟨"x", 1⟩])
    ⟨"o", "/p", "GET", [("h", "2")]⟩ c8ValUntagged [⟨"x", 1⟩]

/-- C8 counterexample: under one (origin, path, method) sit a tagged entry
(`cacheTags = ["t"]`, vary `h: 1`) and an untagged one (`cacheTags = []`, vary
`h: 2`).  `deleteByCacheTags("o", ["t"])` deletes the *whole* key list, so the
entry that carried no tag — retrievable before — is gone afterwards, refuting
"every entry not carrying any of the given tags is still retrievable". -/
theorem C8_counterexample :
    ((getEntries c8Store ⟨"o", "/p", "GET", []⟩).getD []).map Entry.cacheTags = [["t"], []] ∧
    ((c8Store.get ⟨"o", "/p", "GET", [("h", "2")]⟩ 0).map GetResult.statusMessage
      = some "untagged") ∧
    (c8Store.deleteByCacheTags "o" ["t"]).get ⟨"o", "/p", "GET", [("h", "2")]⟩ 0 = none := by
  refine ⟨by decide, by decide, by decide⟩

/-! ### Legacy variant (`src/unnamed/part_000`): lock-based store -/

namespace Legacy

/-- The cache-value metadata (`opts`) handed to the legacy
`createWriteStream`; `cacheTags` is assigned by `createWriteStream` itself
(`opts.cacheTags = cacheTags`).  Only the fields the store reads are
modelled. -/
structure LVal where
  statusMessage : String
  rawHeaders : List String
  vary : Option (List (String × String))
  deleteAt : Nat
  cacheTags : List String
deriving DecidableEq, Repr

/-- A `MemoryStoreValue`: `{ readers, readLock, writeLock, opts, body }`. -/
structure LValue where
  readers : Nat
  readLock : Bool
  writeLock : Bool
  opts : LVal
  body : List Chunk
deriving DecidableEq, Repr

/-- The legacy `MemoryCacheStore`: `#maxEntries`/`#maxEntrySize` default to
`Infinity` (`none`), `#data : origin → "path:method" → MemoryStoreValue[]`,
and the same `#tags` index as the primary variant. -/
structure LStore where
  maxEntries : Option Nat
  maxEntrySize : Option Nat
  cacheTagsHeader : Option String
  entryCount : Nat
  data : List (String × List (String × List LValue))
  tags : List (String × List (String × List String))
deriving DecidableEq, Repr

/-- The `${req.path}:${req.method}` cache key. -/
def cacheKeyOf (req : Key) : String := req.path ++ ":" ++ req.method

/-- The empty store built by `new MemoryCacheStore()` (legacy variant). -/
def lempty : LStore :=
  { maxEntries := none, maxEntrySize := none, cacheTagsHeader := none,
    entryCount := 0, data := [], tags := [] }

/-- Legacy `#saveCacheTags(req, cacheTags)`. -/
def lsaveCacheTags (s : LStore) (req : Key) (cacheTags : List String) : LStore :=
  if cacheTags.isEmpty then s
  else
    let originTags := (mget s.tags req.origin).getD []
    let originTags' := cacheTags.foldl (fun ot tag =>
      let tagPaths := (mget ot tag).getD []
      mset ot tag (sadd tagPaths (cacheKeyOf req))) originTags
    { s with tags := mset s.tags req.origin originTags' }

/-- Legacy `#unlinkRouteFromCacheTag(origin, cacheTags, cacheKey)` (same body
as the primary variant's, with the cache key passed in directly). -/
def lunlink (tags : List (String × List (String × List String))) (origin : String)
    (cacheTags : List String) (cacheKey : String) :
    List (String × List (String × List String)) :=
  match mget tags origin with
  | none => tags
  | some originTags =>
    mset tags origin (cacheTags.foldl (unlinkTagStep cacheKey) originTags)

/-- The legacy vary check inside `#findValue`.  (`req.headers` is always a
(possibly empty) object in every caller, so the `!req.headers` early exit is
never taken and is not modelled.) -/
def lvaryMatches (vary : Option (List (String × String)))
    (headers : List (String × String)) : Bool :=
  match vary with
  | none => true
  | some vs => vs.all (fun p => (mget headers p.1) = some p.2)

/-- Overwrite the value list stored under `(origin, ck)`. -/
def dataSet (s : LStore) (origin ck : String) (values : List LValue) : LStore :=
  let cachedPaths := (mget s.data origin).getD []
  { s with data := mset s.data origin (mset cachedPaths ck values) }

/-- The loop of `#findValue`, walking the list from the tail (`i+1` inspects
index `i`).  On the first expired value it unlinks *that* value's tags
(`opts.cacheTags` is always an array, which is truthy in JS even when empty),
truncates the list at the current index (`values.length = i`, which also drops
the already-visited vary-mismatched values behind it), and decrements
`#entryCount` by the number dropped.  Otherwise it returns the index of the
first (from the tail) vary-matching value. -/
def lfindGo (req : Key) (now : Nat) (values : List LValue) (s : LStore) :
    Nat → Option Nat × List LValue × LStore
  | 0 => (none, values, s)
  | i + 1 =>
    match values[i]? with
    | none => (none, values, s)
    | some cur =>
      if cur.opts.deleteAt ≤ now then
        let s1 := { s with
          tags := lunlink s.tags req.origin cur.opts.cacheTags (cacheKeyOf req)
          entryCount := s.entryCount - (values.length - i) }
        (none, values.take i, s1)
      else if lvaryMatches cur.opts.vary req.headers then (some i, values, s)
      else lfindGo req now values s i

/-- Legacy `#findValue(req, values)`: result index (if any), the possibly
swept value list, and the store with its tag/count side effects. -/
def lfindValue (req : Key) (now : Nat) (values : List LValue) (s : LStore) :
    Option Nat × List LValue × LStore :=
  lfindGo req now values s values.length

/-- The handle a `MemoryStoreReadableStream` amounts to: where the value
lives, the snapshot of body chunks to stream, and `value.opts` (the stream's
`.value` getter). -/
structure ReadHandle where
  origin : String
  ck : String
  idx : Nat
  chunks : List Chunk
  value : LVal
deriving DecidableEq, Repr

/-- The handle a `MemoryStoreWritableStream` amounts to: where its value
lives. -/
structure WriteHandle where
  origin : String
  ck : String
  idx : Nat
deriving DecidableEq, Repr

/-- Legacy `createReadStream(req)` at time `now`: locate the value list (no
creation), run `#findValue` (with its sweep side effects), fail on a missing
or `readLock`ed value, otherwise increment `readers`, set `writeLock`, and
snapshot the body. -/
def lcreateReadStream (s : LStore) (req : Key) (now : Nat) :
    Option ReadHandle × LStore :=
  match mget s.data req.origin with
  | none => (none, s)
  | some cachedPaths =>
    match mget cachedPaths (cacheKeyOf req) with
    | none => (none, s)
    | some values =>
      match lfindValue req now values s with
      | (idxq, values', s1) =>
        let s2 := dataSet s1 req.origin (cacheKeyOf req) values'
        match idxq with
        | none => (none, s2)
        | some i =>
          match values'[i]? with
          | none => (none, s2)
          | some v =>
            if v.readLock then (none, s2)
            else
              let v' := { v with readers := v.readers + 1, writeLock := true }
              (some ⟨req.origin, cacheKeyOf req, i, v.body, v.opts⟩,
                dataSet s2 req.origin (cacheKeyOf req) (values'.set i v'))

/-- The JS binary-search insertion loop of the legacy `createWriteStream`,
faithfully including its bugs: `opts.deleteAt === middleIndex` compares a
timestamp with an *index*, and the non-shrinking `startIndex = middleIndex`
branch makes the loop hang on some inputs — fuel exhaustion (`none`) models
that divergence. -/
def binInsertGo (dA : Nat) (values : List LValue) (v : LValue) :
    Nat → Nat → Nat → Option (List LValue × Nat)
  | 0, _, _ => none
  | fuel + 1, st, en =>
    if st = en then some (values.take st ++ v :: values.drop st, st)
    else
      let mid := (st + en) / 2
      match values[mid]? with
      | none => none
      | some mv =>
        if dA = mid then some (values.take mid ++ v :: values.drop mid, mid)
        else if mv.opts.deleteAt < dA then binInsertGo dA values v fuel st mid
        else binInsertGo dA values v fuel mid en

/-- Legacy `createWriteStream(req, opts)` at time `now`.  The outer `Option`
is `none` only when the (buggy) binary-search insertion loop diverges;
otherwise `some (handle?, store)` with `handle? = none` for the capacity/lock
refusals.  Notes kept from the source: the value-insertion guards
`opts.deleteAt < values[last].deleteAt` and `opts.deleteAt >= values[0].deleteAt`
read the absent property `deleteAt` of the *value* objects (JS `undefined`),
so both comparisons are always false and any non-empty list falls through to
the binary search; the `MemoryStoreWritableStream` constructor sets
`value.readLock = true` on the same object reference, so the value is stored
with `readLock` already true; the stream's `error`/`bodyOversized` handlers
call `values.filter(...)` and discard the result, a no-op. -/
def lcreateWriteStream (s : LStore) (req : Key) (opts : LVal) (now : Nat) :
    Option (Option WriteHandle × LStore) :=
  if geInf s.entryCount s.maxEntries then some (none, s)
  else
    let cacheTags := parseCacheTags s.cacheTagsHeader opts.rawHeaders
    let s1 := lsaveCacheTags s req cacheTags
    let opts' := { opts with cacheTags := cacheTags }
    let cachedPaths := (mget s1.data req.origin).getD []
    let values := (mget cachedPaths (cacheKeyOf req)).getD []
    let s2 := { s1 with data := mset s1.data req.origin (mset cachedPaths (cacheKeyOf req) values) }
    match lfindValue req now values s2 with
    | (idxq, values', s3) =>
      let s4 := dataSet s3 req.origin (cacheKeyOf req) values'
      match idxq with
      | none =>
        if geInf s4.entryCount s4.maxEntries then some (none, s4)
        else
          let value : LValue :=
            { readers := 0, readLock := true, writeLock := false, opts := opts', body := [] }
          let s5 := { s4 with entryCount := s4.entryCount + 1 }
          if values'.isEmpty then
            some (some ⟨req.origin, cacheKeyOf req, values'.length⟩,
              dataSet s5 req.origin (cacheKeyOf req) (values' ++ [value]))
          else
            match binInsertGo opts'.deleteAt values' value (values'.length + 2) 0 values'.length with
            | none => none
            | some (values'', pos) =>
              some (some ⟨req.origin, cacheKeyOf req, pos⟩,
                dataSet s5 req.origin (cacheKeyOf req) values'')
      | some i =>
        match values'[i]? with
        | none => some (none, s4)
        | some v =>
          if v.writeLock || v.readLock then some (none, s4)
          else
            some (some ⟨req.origin, cacheKeyOf req, i⟩,
              dataSet s4 req.origin (cacheKeyOf req)
                (values'.set i { v with body := [], readLock := true }))

/-- One `_write` step of `MemoryStoreWritableStream`: accumulate
`#currentSize`; while it stays below `#maxEntrySize` push the chunk, otherwise
drop the buffered body (`#body = null`, emitting `bodyOversized`). -/
def lwriteStep (max : Option Nat) (acc : Nat × Option (List Chunk)) (c : Chunk) :
    Nat × Option (List Chunk) :=
  let sz := acc.1 + c.byteLength
  if ltInf sz max then (sz, acc.2.map (fun b => b ++ [c])) else (sz, none)

/-- All `_write` steps of a legacy write stream over its chunk sequence. -/
def lwriteBody (max : Option Nat) (chunks : List Chunk) : Nat × Option (List Chunk) :=
  chunks.foldl (lwriteStep max) (0, some [])

/-- Writing `chunks` through the legacy write stream and ending it (`_final`):
when the accumulated size stayed below `#maxEntrySize`, clear `readLock` and
publish the body; an oversized write leaves the value untouched (its
`readLock` stays set — the source never clears it in that case). -/
def lwriteFinal (s : LStore) (h : WriteHandle) (chunks : List Chunk) : LStore :=
  let cachedPaths := (mget s.data h.origin).getD []
  let values := (mget cachedPaths h.ck).getD []
  match values[h.idx]? with
  | none => s
  | some v =>
    let r := lwriteBody s.maxEntrySize chunks
    if ltInf r.1 s.maxEntrySize then
      dataSet s h.origin h.ck
        (values.set h.idx { v with readLock := false, body := r.2.getD [] })
    else s

/-- Closing a legacy read stream: decrement `readers`; the last reader to
close clears `writeLock`. -/
def lcloseRead (s : LStore) (h : ReadHandle) : LStore :=
  let cachedPaths := (mget s.data h.origin).getD []
  let values := (mget cachedPaths h.ck).getD []
  match values[h.idx]? with
  | none => s
  | some v =>
    let v' := { v with readers := v.readers - 1 }
    let v'' := if v'.readers = 0 then { v' with writeLock := false } else v'
    dataSet s h.origin h.ck (values.set h.idx v'')

end Legacy

namespace Legacy

/-- The write handle returned for the C7 scenario's key. -/
def c7wh (req : Key) : WriteHandle := ⟨req.origin, cacheKeyOf req, 0⟩

/-- The stored value right after a write stream is opened on a fresh key:
`readLock` already set by the `MemoryStoreWritableStream` constructor. -/
def c7val1 (opts : LVal) : LValue :=
  { readers := 0, readLock := true, writeLock := false,
    opts := { opts with cacheTags := [] }, body := [] }

/-- Store state with the single value mid-write. -/
def c7s1 (req : Key) (opts : LVal) : LStore :=
  { maxEntries := none, maxEntrySize := none, cacheTagsHeader := none, entryCount := 1,
    data := [(req.origin, [(cacheKeyOf req, [c7val1 opts])])], tags := [] }

/-- The stored value after the write completed normally. -/
def c7val2 (opts : LVal) (chunks : List Chunk) : LValue :=
  { readers := 0, readLock := false, writeLock := false,
    opts := { opts with cacheTags := [] }, body := chunks }

/-- Store state after the write committed. -/
def c7s2 (req : Key) (opts : LVal) (chunks : List Chunk) : LStore :=
  { maxEntries := none, maxEntrySize := none, cacheTagsHeader := none, entryCount := 1,
    data := [(req.origin, [(cacheKeyOf req, [c7val2 opts chunks])])], tags := [] }

/-- The read handle produced once the committed value is read. -/
def c7rh (req : Key) (opts : LVal) (chunks : List Chunk) : ReadHandle :=
  ⟨req.origin, cacheKeyOf req, 0, chunks, { opts with cacheTags := [] }⟩

/-- The stored value while one reader is draining it. -/
def c7val3 (opts : LVal) (chunks : List Chunk) : LValue :=
  { readers := 1, readLock := false, writeLock := true,
    opts := { opts with cacheTags := [] }, body := chunks }

/-- Store state during the read. -/
def c7s3 (req : Key) (opts : LVal) (chunks : List Chunk) : LStore :=
  { maxEntries := none, maxEntrySize := none, cacheTagsHeader := none, entryCount := 1,
    data := [(req.origin, [(cacheKeyOf req, [c7val3 opts chunks])])], tags := [] }

theorem lwriteFold_inf (chunks : List Chunk) (sz : Nat) (acc : List Chunk) :
    chunks.foldl (lwriteStep none) (sz, some acc) =
      (sz + (chunks.map Chunk.byteLength).sum, some (acc ++ chunks)) := by
  induction chunks generalizing sz acc with
  | nil => simp
  | cons c rest ih => simp [lwriteStep, ltInf, ih, Nat.add_assoc]

theorem c7step1 (req : Key) (opts : LVal) (now : Nat) :
    lcreateWriteStream lempty req opts now = some (some (c7wh req), c7s1 req opts) := by
  simp [lcreateWriteStream, lempty, geInf, parseCacheTags, lsaveCacheTags, lfindValue,
    lfindGo, dataSet, cacheKeyOf, mget, mset, List.find?, c7wh, c7s1, c7val1]

theorem c7step2 (req : Key) (opts : LVal) (hv : opts.vary = none) (now : Nat)
    (hn : now < opts.deleteAt) :
    lcreateWriteStream (c7s1 req opts) req opts now = some (none, c7s1 req opts) := by
  simp [lcreateWriteStream, c7s1, geInf, parseCacheTags, lsaveCacheTags, lfindValue,
    lfindGo, dataSet, cacheKeyOf, mget, mset, List.find?, c7val1, lvaryMatches, hv,
    Nat.not_le.mpr hn]

theorem c7step3 (req : Key) (opts : LVal) (hv : opts.vary = none) (now : Nat)
    (hn : now < opts.deleteAt) :
    lcreateReadStream (c7s1 req opts) req now = (none, c7s1 req opts) := by
  simp [lcreateReadStream, c7s1, lfindValue, lfindGo, dataSet, cacheKeyOf, mget, mset,
    List.find?, c7val1, lvaryMatches, hv, Nat.not_le.mpr hn]

theorem c7step4 (req : Key) (opts : LVal) (chunks : List Chunk) :
    lwriteFinal (c7s1 req opts) (c7wh req) chunks = c7s2 req opts chunks := by
  simp [lwriteFinal, c7s1, c7s2, c7wh, c7val1, c7val2, dataSet, cacheKeyOf, mget, mset,
    List.find?, lwriteBody, lwriteFold_inf, ltInf]

theorem c7step5 (req : Key) (opts : LVal) (hv : opts.vary = none) (now : Nat)
    (hn : now < opts.deleteAt) (chunks : List Chunk) :
    lcreateReadStream (c7s2 req opts chunks) req now =
      (some (c7rh req opts chunks), c7s3 req opts chunks) := by
  simp [lcreateReadStream, c7s2, c7s3, c7rh, c7val2, c7val3, lfindValue, lfindGo,
    dataSet, cacheKeyOf, mget, mset, List.find?, lvaryMatches, hv, Nat.not_le.mpr hn]

theorem c7step6 (req : Key) (opts : LVal) (hv : opts.vary = none) (now : Nat)
    (hn : now < opts.deleteAt) (chunks : List Chunk) :
    lcreateWriteStream (c7s3 req opts chunks) req opts now =
      some (none, c7s3 req opts chunks) := by
  simp [lcreateWriteStream, c7s3, geInf, parseCacheTags, lsaveCacheTags, lfindValue,
    lfindGo, dataSet, cacheKeyOf, mget, mset, List.find?, c7val3, lvaryMatches, hv,
    Nat.not_le.mpr hn]

theorem c7step7 (req : Key) (opts : LVal) (chunks : List Chunk) :
    lcloseRead (c7s3 req opts chunks) (c7rh req opts chunks) = c7s2 req opts chunks := by
  simp [lcloseRead, c7s3, c7s2, c7rh, c7val3, c7val2, dataSet, cacheKeyOf, mget, mset,
    List.find?]

theorem c7step8 (req : Key) (opts : LVal) (hv : opts.vary = none) (now : Nat)
    (hn : now < opts.deleteAt) (chunks : List Chunk) :
    lcreateWriteStream (c7s2 req opts chunks) req opts now =
      some (some (c7wh req), c7s1 req opts) := by
  simp [lcreateWriteStream, c7s2, c7s1, c7wh, geInf, parseCacheTags, lsaveCacheTags,
    lfindValue, lfindGo, dataSet, cacheKeyOf, mget, mset, List.find?, c7val2, c7val1,
    lvaryMatches, hv, Nat.not_le.mpr hn]

end Legacy

/-- C7: lock lifecycle of the legacy store, for any key, any metadata without
a `vary` mapping, and any time before the entry's `deleteAt`: opening a write
stream on an empty store succeeds; while it is open, a second write attempt
and a read attempt on that key both return absence (no handle) and leave the
store unchanged; after the write completes normally a read succeeds (serving
exactly the written chunks), a write attempted during that read returns
absence, and once the reader closes a new write on the key succeeds again. -/
theorem C7_write_lock_lifecycle (req : Key) (opts : Legacy.LVal)
    (hv : opts.vary = none) (now : Nat) (hn : now < opts.deleteAt)
    (chunks : List Chunk) :
    Legacy.lcreateWriteStream Legacy.lempty req opts now
        = some (some (Legacy.c7wh req), Legacy.c7s1 req opts) ∧
    Legacy.lcreateWriteStream (Legacy.c7s1 req opts) req opts now
        = some (none, Legacy.c7s1 req opts) ∧
    Legacy.lcreateReadStream (Legacy.c7s1 req opts) req now
        = (none, Legacy.c7s1 req opts) ∧
    Legacy.lwriteFinal (Legacy.c7s1 req opts) (Legacy.c7wh req) chunks
        = Legacy.c7s2 req opts chunks ∧
    Legacy.lcreateReadStream (Legacy.c7s2 req opts chunks) req now
        = (some (Legacy.c7rh req opts chunks), Legacy.c7s3 req opts chunks) ∧
    (Legacy.c7rh req opts chunks).chunks = chunks ∧
    Legacy.lcreateWriteStream (Legacy.c7s3 req opts chunks) req opts now
        = some (none, Legacy.c7s3 req opts chunks) ∧
    Legacy.lcloseRead (Legacy.c7s3 req opts chunks) (Legacy.c7rh req opts chunks)
        = Legacy.c7s2 req opts chunks ∧
    Legacy.lcreateWriteStream (Legacy.c7s2 req opts chunks) req opts now
        = some (some (Legacy.c7wh req), Legacy.c7s1 req opts) :=
  ⟨Legacy.c7step1 req opts now, Legacy.c7step2 req opts hv now hn,
   Legacy.c7step3 req opts hv now hn, Legacy.c7step4 req opts chunks,
   Legacy.c7step5 req opts hv now hn chunks, rfl,
   Legacy.c7step6 req opts hv now hn chunks, Legacy.c7step7 req opts chunks,
   Legacy.c7step8 req opts hv now hn chunks⟩

def c7ReqW : Key := ⟨"localhost", "/", "GET", []⟩

def c7OptsW : Legacy.LVal :=
  { statusMessage := "v", rawHeaders := [], vary := none, deleteAt := 20000,
    cacheTags := [] }

/-- C7 witness: the lifecycle at a concrete key, value and time. -/
theorem C7_witness :
    Legacy.lcreateWriteStream (Legacy.c7s1 c7ReqW c7OptsW) c7ReqW c7OptsW 0
        = some (none, Legacy.c7s1 c7ReqW c7OptsW) ∧
    Legacy.lcreateReadStream (Legacy.c7s1 c7ReqW c7OptsW) c7ReqW 0
        = (none, Legacy.c7s1 c7ReqW c7OptsW) ∧
    Legacy.lcreateWriteStream (Legacy.c7s2 c7ReqW c7OptsW [⟨"asd", 3⟩]) c7ReqW c7OptsW 0
        = some (some (Legacy.c7wh c7ReqW), Legacy.c7s1 c7ReqW c7OptsW) :=
  ⟨(C7_write_lock_lifecycle c7ReqW c7OptsW rfl 0 (by decide) [⟨"asd", 3⟩]).2.1,
   (C7_write_lock_lifecycle c7ReqW c7OptsW rfl 0 (by decide) [⟨"asd", 3⟩]).2.2.1,
   (C7_write_lock_lifecycle c7ReqW c7OptsW rfl 0 (by decide) [⟨"asd", 3⟩]).2.2.2.2.2.2.2.2⟩

/-! ### C8 — lemmas: `getEntries` under `#deleteByKey` -/

theorem deleteEntry_entries (s : Store) (k : Key) (e : Entry) :
    (deleteEntry s k e).entries = s.entries := rfl

theorem foldl_deleteEntry_entries (l : List Entry) (s : Store) (k : Key) :
    (l.foldl (fun a e => deleteEntry a k e) s).entries = s.entries := by
  induction l generalizing s with
  | nil => rfl
  | cons e rest ih => simp [List.foldl, ih, deleteEntry_entries]

theorem mkKeyFromCK_origin (origin ck : String) :
    (mkKeyFromCK origin ck).origin = origin := by
  unfold mkKeyFromCK; split <;> rfl

theorem getEntries_deleteByKey_self (s : Store) (k k' : Key)
    (ho : k'.origin = k.origin) (hp : k'.path = k.path) (hm : k'.method = k.method) :
    getEntries (deleteByKey s k) k' = none := by
  unfold deleteByKey
  cases hO : mget s.entries k.origin with
  | none => unfold getEntries; rw [ho, hO]
  | some ov =>
    cases hP : mget ov k.path with
    | none =>
      simp only [hP]
      unfold getEntries
      rw [ho, hO]
      simp only [hp, hP]
    | some pv =>
      cases hM : mget pv k.method with
      | none =>
        simp only [hP, hM]
        unfold getEntries
        rw [ho, hO]
        simp only [hp, hP, hm, hM]
      | some es =>
        simp only [hP, hM]
        unfold getEntries
        simp only [ho, mget_mset_self]
        by_cases hemp : (mdel pv k.method).isEmpty = true
        · rw [if_pos hemp]
          simp only [hp, mget_mdel_self]
        · rw [if_neg hemp]
          simp only [hp, mget_mset_self, hm, mget_mdel_self]

theorem getEntries_deleteByKey_ne (s : Store) (k : Key) (k' : Key)
    (hne : ¬(k'.origin = k.origin ∧ k'.path = k.path ∧ k'.method = k.method)) :
    getEntries (deleteByKey s k) k' = getEntries s k' := by
  unfold deleteByKey
  cases hO : mget s.entries k.origin with
  | none => rfl
  | some ov =>
    cases hP : mget ov k.path with
    | none => simp only [hP]
    | some pv =>
      cases hM : mget pv k.method with
      | none => simp only [hP, hM]
      | some es =>
        simp only [hP, hM]
        by_cases ho : k'.origin = k.origin
        · by_cases hp : k'.path = k.path
          · have hm : k'.method ≠ k.method := by
              intro hmm; exact hne ⟨ho, hp, hmm⟩
            unfold getEntries
            simp only [ho, mget_mset_self, foldl_deleteEntry_entries]
            rw [hO]
            by_cases hemp : (mdel pv k.method).isEmpty = true
            · rw [if_pos hemp]
              simp only [hp, mget_mdel_self, hP,
                mget_of_mdel_nil pv k.method k'.method (List.isEmpty_iff.mp hemp) hm]
            · rw [if_neg hemp]
              simp only [hp, mget_mset_self, hP, mget_mdel_ne _ _ _ hm]
          · unfold getEntries
            simp only [ho, mget_mset_self, foldl_deleteEntry_entries]
            rw [hO]
            by_cases hemp : (mdel pv k.method).isEmpty = true
            · rw [if_pos hemp]
              simp only [mget_mdel_ne _ _ _ hp]
            · rw [if_neg hemp]
              simp only [mget_mset_ne _ _ _ _ hp]
        · unfold getEntries
          simp only [foldl_deleteEntry_entries, mget_mset_ne _ _ _ _ ho]

theorem getEntries_deleteByKey_none (s : Store) (k : Key) (k' : Key)
    (h : getEntries s k' = none) : getEntries (deleteByKey s k) k' = none := by
  by_cases hr : k'.origin = k.origin ∧ k'.path = k.path ∧ k'.method = k.method
  · exact getEntries_deleteByKey_self s k k' hr.1 hr.2.1 hr.2.2
  · rw [getEntries_deleteByKey_ne s k k' hr]; exact h

/-! ### C8 — lemmas: tag sets only shrink, and only by the unlinked cache key -/

/-- The set of cache keys under `(origin, tag)` in a raw tags map. -/
def tsOf (T : List (String × List (String × List String))) (o t : String) :
    List String :=
  (mget ((mget T o).getD []) t).getD []

theorem tagSet_eq_tsOf (s : Store) (o t : String) : tagSet s o t = tsOf s.tags o t := rfl

theorem mem_sdel (l : List String) (x y : String) :
    x ∈ sdel l y ↔ x ∈ l ∧ x ≠ y := by
  simp [sdel, List.mem_filter]

theorem unlinkTagStep_sub (cacheKey x t c : String) (ot : List (String × List String))
    (hx : x ∈ (mget (unlinkTagStep cacheKey ot c) t).getD []) :
    x ∈ (mget ot t).getD [] := by
  unfold unlinkTagStep at hx
  cases hc : mget ot c with
  | none => rwa [hc] at hx
  | some cks =>
    rw [hc] at hx
    simp only at hx
    by_cases he : (sdel cks cacheKey).isEmpty = true
    · rw [if_pos he] at hx
      by_cases htc : t = c
      · rw [htc, mget_mdel_self] at hx
        simp at hx
      · rwa [mget_mdel_ne _ _ _ htc] at hx
    · rw [if_neg he] at hx
      by_cases htc : t = c
      · subst htc
        rw [mget_mset_self] at hx
        rw [hc]
        exact ((mem_sdel cks x cacheKey).mp hx).1
      · rwa [mget_mset_ne _ _ _ _ htc] at hx

theorem unlinkTagStep_pres (cacheKey x t c : String) (ot : List (String × List String))
    (hx : x ∈ (mget ot t).getD []) (hne : x ≠ cacheKey) :
    x ∈ (mget (unlinkTagStep cacheKey ot c) t).getD [] := by
  unfold unlinkTagStep
  cases hc : mget ot c with
  | none => exact hx
  | some cks =>
    simp only
    by_cases he : (sdel cks cacheKey).isEmpty = true
    · rw [if_pos he]
      by_cases htc : t = c
      · exfalso
        subst htc
        rw [hc] at hx
        have : x ∈ sdel cks cacheKey := (mem_sdel cks x cacheKey).mpr ⟨hx, hne⟩
        rw [List.isEmpty_iff.mp he] at this
        simp at this
      · rwa [mget_mdel_ne _ _ _ htc]
    · rw [if_neg he]
      by_cases htc : t = c
      · subst htc
        rw [mget_mset_self]
        rw [hc] at hx
        exact (mem_sdel cks x cacheKey).mpr ⟨hx, hne⟩
      · rwa [mget_mset_ne _ _ _ _ htc]

theorem unlinkFold_sub (cacheKey x t : String) (cts : List String) :
    ∀ ot, x ∈ (mget (cts.foldl (unlinkTagStep cacheKey) ot) t).getD [] →
      x ∈ (mget ot t).getD [] := by
  induction cts with
  | nil => intro ot h; exact h
  | cons c rest ih =>
    intro ot h
    exact unlinkTagStep_sub cacheKey x t c ot (ih _ h)

theorem unlinkFold_pres (cacheKey x t : String) (cts : List String) :
    ∀ ot, x ∈ (mget ot t).getD [] → x ≠ cacheKey →
      x ∈ (mget (cts.foldl (unlinkTagStep cacheKey) ot) t).getD [] := by
  induction cts with
  | nil => intro ot h _; exact h
  | cons c rest ih =>
    intro ot h hne
    exact ih _ (unlinkTagStep_pres cacheKey x t c ot h hne) hne

theorem tsOf_unlink_sub (T : List (String × List (String × List String))) (k : Key)
    (cts : List String) (o t x : String)
    (hx : x ∈ tsOf (unlinkRouteFromCacheTag T k cts) o t) : x ∈ tsOf T o t := by
  unfold unlinkRouteFromCacheTag at hx
  cases hT : mget T k.origin with
  | none => rwa [hT] at hx
  | some ot0 =>
    rw [hT] at hx
    simp only at hx
    unfold tsOf at hx ⊢
    by_cases ho : o = k.origin
    · subst ho
      rw [mget_mset_self] at hx
      rw [hT]
      exact unlinkFold_sub _ x t cts ot0 hx
    · rwa [mget_mset_ne _ _ _ _ ho] at hx

theorem tsOf_unlink_pres (T : List (String × List (String × List String))) (k : Key)
    (cts : List String) (o t x : String)
    (hx : x ∈ tsOf T o t) (hne : x ≠ k.path ++ ":" ++ k.method) :
    x ∈ tsOf (unlinkRouteFromCacheTag T k cts) o t := by
  unfold unlinkRouteFromCacheTag
  cases hT : mget T k.origin with
  | none => exact hx
  | some ot0 =>
    simp only
    unfold tsOf at hx ⊢
    by_cases ho : o = k.origin
    · subst ho
      rw [mget_mset_self]
      rw [hT] at hx
      exact unlinkFold_pres _ x t cts ot0 hx hne
    · rwa [mget_mset_ne _ _ _ _ ho]

theorem deleteEntry_tags (s : Store) (k : Key) (e : Entry) :
    (deleteEntry s k e).tags = unlinkRouteFromCacheTag s.tags k e.cacheTags := rfl

theorem foldl_deleteEntry_tags_sub (es : List Entry) (k : Key) (o t x : String) :
    ∀ s : Store, x ∈ tsOf (es.foldl (fun a e => deleteEntry a k e) s).tags o t →
      x ∈ tsOf s.tags o t := by
  induction es with
  | nil => intro s h; exact h
  | cons e rest ih =>
    intro s h
    have := ih (deleteEntry s k e) h
    rw [deleteEntry_tags] at this
    exact tsOf_unlink_sub s.tags k e.cacheTags o t x this

theorem foldl_deleteEntry_tags_pres (es : List Entry) (k : Key) (o t x : String)
    (hne : x ≠ k.path ++ ":" ++ k.method) :
    ∀ s : Store, x ∈ tsOf s.tags o t →
      x ∈ tsOf (es.foldl (fun a e => deleteEntry a k e) s).tags o t := by
  induction es with
  | nil => intro s h; exact h
  | cons e rest ih =>
    intro s h
    refine ih (deleteEntry s k e) ?_
    rw [deleteEntry_tags]
    exact tsOf_unlink_pres s.tags k e.cacheTags o t x h hne

theorem tagSet_deleteByKey_sub (s : Store) (k : Key) (o t x : String)
    (hx : x ∈ tagSet (deleteByKey s k) o t) : x ∈ tagSet s o t := by
  unfold deleteByKey at hx
  cases hO : mget s.entries k.origin with
  | none => rwa [hO] at hx
  | some ov =>
    cases hP : mget ov k.path with
    | none => simp only [hO, hP] at hx; exact hx
    | some pv =>
      cases hM : mget pv k.method with
      | none => simp only [hO, hP, hM] at hx; exact hx
      | some es =>
        simp only [hO, hP, hM] at hx
        rw [tagSet_eq_tsOf] at hx ⊢
        exact foldl_deleteEntry_tags_sub es k o t x s hx

theorem tagSet_deleteByKey_pres (s : Store) (k : Key) (o t x : String)
    (hx : x ∈ tagSet s o t) (hne : x ≠ k.path ++ ":" ++ k.method) :
    x ∈ tagSet (deleteByKey s k) o t := by
  unfold deleteByKey
  cases hO : mget s.entries k.origin with
  | none => exact hx
  | some ov =>
    cases hP : mget ov k.path with
    | none => simp only [hO, hP]; exact hx
    | some pv =>
      cases hM : mget pv k.method with
      | none => simp only [hO, hP, hM]; exact hx
      | some es =>
        simp only [hO, hP, hM]
        rw [tagSet_eq_tsOf] at hx ⊢
        exact foldl_deleteEntry_tags_pres es k o t x hne s hx

/-! ### C8 — lemmas: the cache-key loops of `deleteByCacheTags` -/

theorem getEntries_delTagKeys_none (origin tag : String) (snap : List String) (key : Key) :
    ∀ a : Store, getEntries a key = none →
      getEntries (delTagKeys origin tag snap a) key = none := by
  induction snap with
  | nil => intro a h; exact h
  | cons ck rest ih =>
    intro a h
    unfold delTagKeys
    by_cases hm : ck ∈ tagSet a origin tag
    · rw [if_pos hm]
      exact ih _ (getEntries_deleteByKey_none _ _ _ h)
    · rw [if_neg hm]
      exact ih _ h

theorem tagSet_delTagKeys_sub (origin tag : String) (snap : List String)
    (o' t' x : String) :
    ∀ a : Store, x ∈ tagSet (delTagKeys origin tag snap a) o' t' →
      x ∈ tagSet a o' t' := by
  induction snap with
  | nil => intro a h; exact h
  | cons ck rest ih =>
    intro a h
    unfold delTagKeys at h
    by_cases hm : ck ∈ tagSet a origin tag
    · rw [if_pos hm] at h
      exact tagSet_deleteByKey_sub _ _ _ _ _ (ih _ h)
    · rw [if_neg hm] at h
      exact ih _ h

theorem inv_delTagKeys (origin tag tq ck : String) (snap : List String) :
    ∀ a : Store, (∀ x ∈ snap, ckJoin origin x = x) →
      (ck ∈ tagSet a origin tq ∨ getEntries a (mkKeyFromCK origin ck) = none) →
      (ck ∈ tagSet (delTagKeys origin tag snap a) origin tq ∨
        getEntries (delTagKeys origin tag snap a) (mkKeyFromCK origin ck) = none) := by
  induction snap with
  | nil => intro a _ h; exact h
  | cons x rest ih =>
    intro a hrt h
    unfold delTagKeys
    by_cases hm : x ∈ tagSet a origin tag
    · rw [if_pos hm]
      refine ih _ (fun y hy => hrt y (List.mem_cons_of_mem _ hy)) ?_
      rcases h with hL | hR
      · by_cases hcx : ck = x
        · subst hcx
          exact Or.inr (getEntries_deleteByKey_self _ _ _ rfl rfl rfl)
        · refine Or.inl (tagSet_deleteByKey_pres _ _ _ _ _ hL ?_)
          show ck ≠ ckJoin origin x
          rw [hrt x (List.mem_cons_self _ _)]
          exact hcx
      · exact Or.inr (getEntries_deleteByKey_none _ _ _ hR)
    · rw [if_neg hm]
      exact ih _ (fun y hy => hrt y (List.mem_cons_of_mem _ hy)) h

theorem hit_delTagKeys (origin tag ck : String) (snap : List String) :
    ∀ a : Store, (∀ x ∈ snap, ckJoin origin x = x) → ck ∈ snap →
      (ck ∈ tagSet a origin tag ∨ getEntries a (mkKeyFromCK origin ck) = none) →
      getEntries (delTagKeys origin tag snap a) (mkKeyFromCK origin ck) = none := by
  induction snap with
  | nil => intro a _ hmem; exact absurd hmem (List.not_mem_nil _)
  | cons x rest ih =>
    intro a hrt hmem hinv
    unfold delTagKeys
    by_cases hcx : ck = x
    · subst hcx
      by_cases hm : ck ∈ tagSet a origin tag
      · rw [if_pos hm]
        exact getEntries_delTagKeys_none origin tag rest _ _
          (getEntries_deleteByKey_self _ _ _ rfl rfl rfl)
      · rw [if_neg hm]
        rcases hinv with hL | hR
        · exact absurd hL hm
        · exact getEntries_delTagKeys_none origin tag rest _ _ hR
    · have hmem' : ck ∈ rest := by
        rcases List.mem_cons.mp hmem with h | h
        · exact absurd h hcx
        · exact h
      by_cases hm : x ∈ tagSet a origin tag
      · rw [if_pos hm]
        refine ih _ (fun y hy => hrt y (List.mem_cons_of_mem _ hy)) hmem' ?_
        rcases hinv with hL | hR
        · refine Or.inl (tagSet_deleteByKey_pres _ _ _ _ _ hL ?_)
          show ck ≠ ckJoin origin x
          rw [hrt x (List.mem_cons_self _ _)]
          exact hcx
        · exact Or.inr (getEntries_deleteByKey_none _ _ _ hR)
      · rw [if_neg hm]
        exact ih _ (fun y hy => hrt y (List.mem_cons_of_mem _ hy)) hmem' hinv

theorem pres_delTagKeys (origin tag : String) (key : Key) (snap : List String) :
    ∀ a : Store,
      (∀ x ∈ snap, ¬(key.origin = origin ∧ key.path = (mkKeyFromCK origin x).path ∧
        key.method = (mkKeyFromCK origin x).method)) →
      getEntries (delTagKeys origin tag snap a) key = getEntries a key := by
  induction snap with
  | nil => intro a _; rfl
  | cons x rest ih =>
    intro a hb
    unfold delTagKeys
    by_cases hm : x ∈ tagSet a origin tag
    · rw [if_pos hm]
      rw [ih _ (fun y hy => hb y (List.mem_cons_of_mem _ hy))]
      refine getEntries_deleteByKey_ne _ _ _ ?_
      rintro ⟨h1, h2, h3⟩
      refine hb x (List.mem_cons_self _ _) ⟨?_, h2, h3⟩
      rw [← mkKeyFromCK_origin origin x]
      exact h1
    · rw [if_neg hm]
      exact ih _ (fun y hy => hb y (List.mem_cons_of_mem _ hy))

theorem tagSet_tags_update (a : Store) (T : List (String × List (String × List String)))
    (o t : String) : tagSet { a with tags := T } o t = tsOf T o t := rfl

theorem tagSet_at (a : Store) (origin t0 : String) (cks : List String)
    (hc : mget ((mget a.tags origin).getD []) t0 = some cks) :
    tagSet a origin t0 = cks := by
  rw [tagSet_eq_tsOf]; unfold tsOf; rw [hc]; rfl

theorem tagSet_at_none (a : Store) (origin t0 : String)
    (hc : mget ((mget a.tags origin).getD []) t0 = none) :
    tagSet a origin t0 = [] := by
  rw [tagSet_eq_tsOf]; unfold tsOf; rw [hc]; rfl

theorem getEntries_delOneTag_none (a : Store) (origin t0 : String) (key : Key)
    (h : getEntries a key = none) :
    getEntries (delOneTag a origin t0) key = none := by
  unfold delOneTag
  cases hc : mget ((mget a.tags origin).getD []) t0 with
  | none => exact h
  | some cks =>
    simp only
    exact getEntries_delTagKeys_none origin t0 cks key a h

theorem tagSet_delOneTag_sub (a : Store) (origin t0 oq tq x : String)
    (hx : x ∈ tagSet (delOneTag a origin t0) oq tq) : x ∈ tagSet a oq tq := by
  unfold delOneTag at hx
  cases hc : mget ((mget a.tags origin).getD []) t0 with
  | none => rwa [hc] at hx
  | some cks =>
    simp only [hc] at hx
    rw [tagSet_tags_update] at hx
    unfold tsOf at hx
    by_cases ho : oq = origin
    · subst ho
      rw [mget_mset_self, Option.getD_some] at hx
      by_cases ht : tq = t0
      · subst ht
        rw [mget_mdel_self] at hx
        simp at hx
      · rw [mget_mdel_ne _ _ _ ht] at hx
        exact tagSet_delTagKeys_sub oq t0 cks oq tq x a hx
    · rw [mget_mset_ne _ _ _ _ ho] at hx
      exact tagSet_delTagKeys_sub origin t0 cks oq tq x a hx

theorem inv_delOneTag (a : Store) (origin t0 tq ck : String) (hne : tq ≠ t0)
    (hrt : ∀ x ∈ tagSet a origin t0, ckJoin origin x = x)
    (hinv : ck ∈ tagSet a origin tq ∨ getEntries a (mkKeyFromCK origin ck) = none) :
    ck ∈ tagSet (delOneTag a origin t0) origin tq ∨
      getEntries (delOneTag a origin t0) (mkKeyFromCK origin ck) = none := by
  unfold delOneTag
  cases hc : mget ((mget a.tags origin).getD []) t0 with
  | none => exact hinv
  | some cks =>
    simp only
    have hrt' : ∀ x ∈ cks, ckJoin origin x = x := by
      intro x hx
      exact hrt x (by rw [tagSet_at a origin t0 cks hc]; exact hx)
    rcases inv_delTagKeys origin t0 tq ck cks a hrt' hinv with hL | hR
    · left
      rw [tagSet_tags_update]
      unfold tsOf
      rw [mget_mset_self, Option.getD_some, mget_mdel_ne _ _ _ hne]
      rw [tagSet_eq_tsOf] at hL
      unfold tsOf at hL
      exact hL
    · exact Or.inr hR

theorem hit_delOneTag (a : Store) (origin t0 ck : String)
    (hrt : ∀ x ∈ tagSet a origin t0, ckJoin origin x = x)
    (hinv : ck ∈ tagSet a origin t0 ∨ getEntries a (mkKeyFromCK origin ck) = none) :
    getEntries (delOneTag a origin t0) (mkKeyFromCK origin ck) = none := by
  unfold delOneTag
  cases hc : mget ((mget a.tags origin).getD []) t0 with
  | none =>
    rcases hinv with hL | hR
    · rw [tagSet_at_none a origin t0 hc] at hL
      exact absurd hL (List.not_mem_nil _)
    · exact hR
  | some cks =>
    simp only
    have hrt' : ∀ x ∈ cks, ckJoin origin x = x := by
      intro x hx
      exact hrt x (by rw [tagSet_at a origin t0 cks hc]; exact hx)
    rcases hinv with hL | hR
    · exact hit_delTagKeys origin t0 ck cks a hrt'
        (by rwa [tagSet_at a origin t0 cks hc] at hL) (Or.inl hL)
    · exact getEntries_delTagKeys_none origin t0 cks _ a hR

theorem pres_delOneTag (a : Store) (origin t0 : String) (key : Key)
    (hb : ∀ x ∈ tagSet a origin t0,
      ¬(key.origin = origin ∧ key.path = (mkKeyFromCK origin x).path ∧
        key.method = (mkKeyFromCK origin x).method)) :
    getEntries (delOneTag a origin t0) key = getEntries a key := by
  unfold delOneTag
  cases hc : mget ((mget a.tags origin).getD []) t0 with
  | none => rfl
  | some cks =>
    simp only
    exact pres_delTagKeys origin t0 key cks a
      (fun x hx => hb x (by rw [tagSet_at a origin t0 cks hc]; exact hx))

theorem getEntries_foldTags_none (origin : String) (key : Key) (tags : List String) :
    ∀ a : Store, getEntries a key = none →
      getEntries (tags.foldl (fun acc tag => delOneTag acc origin tag) a) key = none := by
  induction tags with
  | nil => intro a h; exact h
  | cons t0 rest ih =>
    intro a h
    simp only [List.foldl_cons]
    exact ih _ (getEntries_delOneTag_none a origin t0 key h)

theorem hit_foldTags (origin ck tq : String) (tags : List String) :
    ∀ a : Store,
      (∀ t ∈ tags, ∀ x ∈ tagSet a origin t, ckJoin origin x = x) →
      tq ∈ tags →
      (ck ∈ tagSet a origin tq ∨ getEntries a (mkKeyFromCK origin ck) = none) →
      getEntries (tags.foldl (fun acc tag => delOneTag acc origin tag) a)
        (mkKeyFromCK origin ck) = none := by
  induction tags with
  | nil => intro a _ hmem; exact absurd hmem (List.not_mem_nil _)
  | cons t0 rest ih =>
    intro a hrt hmem hinv
    simp only [List.foldl_cons]
    by_cases ht : tq = t0
    · subst ht
      exact getEntries_foldTags_none origin _ rest _
        (hit_delOneTag a origin tq ck (hrt tq (List.mem_cons_self _ _)) hinv)
    · have hmem' : tq ∈ rest := by
        rcases List.mem_cons.mp hmem with h | h
        · exact absurd h ht
        · exact h
      refine ih _ ?_ hmem' ?_
      · intro t htr x hx
        exact hrt t (List.mem_cons_of_mem _ htr) x (tagSet_delOneTag_sub a origin t0 origin t x hx)
      · exact inv_delOneTag a origin t0 tq ck ht (hrt t0 (List.mem_cons_self _ _)) hinv

theorem pres_foldTags (origin : String) (key : Key) (tags : List String) :
    ∀ a : Store,
      (∀ t ∈ tags, ∀ x ∈ tagSet a origin t,
        ¬(key.origin = origin ∧ key.path = (mkKeyFromCK origin x).path ∧
          key.method = (mkKeyFromCK origin x).method)) →
      getEntries (tags.foldl (fun acc tag => delOneTag acc origin tag) a) key
        = getEntries a key := by
  induction tags with
  | nil => intro a _; rfl
  | cons t0 rest ih =>
    intro a hb
    simp only [List.foldl_cons]
    rw [ih _ ?_]
    · exact pres_delOneTag a origin t0 key (hb t0 (List.mem_cons_self _ _))
    · intro t htr x hx
      exact hb t (List.mem_cons_of_mem _ htr) x (tagSet_delOneTag_sub a origin t0 origin t x hx)

/-- C8 amended: `deleteByCacheTags(origin, tags)` invalidates at the
granularity of whole `(origin, path, method)` entry *lists*, not individual
tagged entries: provided the registered cache keys round-trip through the
`split(':')` parse (true for colon-free routes), (a) after the call, every
`(path, method)` that was registered under one of the given tags at that
origin holds no entries at all — tagged and untagged alike — so lookups there
return absence; and (b) every key not matching a registered route of the given
tags is untouched: its entry list (hence every lookup outcome) is exactly as
before. -/
theorem C8_amended_key_level_invalidation (s : Store) (origin : String)
    (tags : List String)
    (hrt : ∀ t ∈ tags, ∀ x ∈ tagSet s origin t, ckJoin origin x = x) :
    (∀ t ∈ tags, ∀ ck ∈ tagSet s origin t,
      getEntries (s.deleteByCacheTags origin tags) (mkKeyFromCK origin ck) = none) ∧
    (∀ k : Key,
      (∀ t ∈ tags, ∀ x ∈ tagSet s origin t,
        ¬(k.origin = origin ∧ k.path = (mkKeyFromCK origin x).path ∧
          k.method = (mkKeyFromCK origin x).method)) →
      getEntries (s.deleteByCacheTags origin tags) k = getEntries s k) := by
  unfold Store.deleteByCacheTags
  by_cases h1 : (mget s.tags origin).isNone = true
  · rw [if_pos h1]
    constructor
    · intro t ht ck hck
      exfalso
      have : tagSet s origin t = [] := by
        rw [tagSet_eq_tsOf]
        unfold tsOf
        rw [Option.isNone_iff_eq_none.mp h1]
        rfl
      rw [this] at hck
      exact List.not_mem_nil _ hck
    · intro k _; rfl
  · rw [if_neg h1]
    by_cases h2 : (mget s.entries origin).isNone = true
    · rw [if_pos h2]
      constructor
      · intro t ht ck hck
        unfold getEntries
        rw [mkKeyFromCK_origin, Option.isNone_iff_eq_none.mp h2]
      · intro k _; rfl
    · rw [if_neg h2]
      constructor
      · intro t ht ck hck
        exact hit_foldTags origin ck t tags s hrt ht (Or.inl hck)
      · intro k hb
        exact pres_foldTags origin k tags s hb

def c8wStore : Store :=
  commitWrite
    (commitWrite
      (commitWrite { defaultStore with cacheTagsHeader := some "cache-tag" }
        ⟨"o", "/p", "GET", [("h", "1")]⟩
        { statusCode := 200, statusMessage := "tagged", rawHeaders := ["cache-tag", "t"],
          vary := some [("h", "1")], etag := none, cachedAt := 0, staleAt := 50,
          deleteAt := 100 } [⟨"x", 1⟩])
      ⟨"o", "/p", "GET", [("h", "2")]⟩
      { statusCode := 200, statusMessage := "untagged", rawHeaders := [],
        vary := some [("h", "2")], etag := none, cachedAt := 0, staleAt := 50,
        deleteAt := 100 } [⟨"x", 1⟩])
    ⟨"o", "/q", "GET", []⟩
    { statusCode := 200, statusMessage := "other", rawHeaders := [], vary := none,
      etag := none, cachedAt := 0, staleAt := 50, deleteAt := 100 } [⟨"x", 1⟩]

/-- C8 amended witness: deleting tag `t` empties the registered `/p : GET`
list and leaves the unregistered `/q : GET` list untouched. -/
theorem C8_amended_witness :
    getEntries (c8wStore.deleteByCacheTags "o" ["t"]) (mkKeyFromCK "o" "/p:GET") = none ∧
    getEntries (c8wStore.deleteByCacheTags "o" ["t"]) ⟨"o", "/q", "GET", []⟩
      = getEntries c8wStore ⟨"o", "/q", "GET", []⟩ :=
  ⟨(C8_amended_key_level_invalidation c8wStore "o" ["t"] (by decide)).1 "t" (by decide)
      "/p:GET" (by decide),
   (C8_amended_key_level_invalidation c8wStore "o" ["t"] (by decide)).2
      ⟨"o", "/q", "GET", []⟩ (by decide)⟩
